import Mathlib

/-!
Verification of the hierarchical visibility engine and navigation state
machine of the `lstr` interactive TUI (`src/tui.rs`).

The development shallowly embeds the Rust code:

* `FileEntry` mirrors `struct FileEntry` (src/tui.rs:42-51); `PathBuf`
  becomes `String`, `usize` becomes `Nat`, `git::FileStatus` is carried as
  an opaque `Option Nat` payload (its values are never inspected by the
  code under verification).
* `AppState` mirrors `struct AppState` (src/tui.rs:53-57); ratatui's
  `ListState` is reduced to its `selected : Option<usize>` field, the only
  part the state machine reads or writes.
* `regenerate_visible_entries`, `next`, `previous`, `get_selected_entry`,
  `toggle_selected_directory`, `AppState.new` mirror the corresponding
  `impl AppState` methods.

Caveats of the embedding, stated once here:

* Rust `usize` subtraction is embedded as truncated `Nat` subtraction.
  The two differ exactly where the Rust expression `len() - 1` underflows
  (empty `visible_entries`), where the Rust code panics in debug builds
  and wraps in release builds; theorems about `next`/`previous` on that
  path are therefore stated only as evaluations of the reachable first
  step (which involves no subtraction), and the divergence is recorded as
  a code bug.
* The `while parent_expanded_stack.len() >= entry.depth` loop of
  `regenerate_visible_entries` does not terminate in Rust if an entry has
  `depth == 0` (the loop condition stays true on an empty stack).  The
  scan never produces such an entry (the walker's root, the only depth-0
  item, is skipped), and `popWhile` below simply stops on the empty
  stack; well-formedness (`isPreOrder`) requires `1 ≤ depth` wherever it
  matters.
* `self.visible_entries[selected_index]` in `toggle_selected_directory`
  panics when the index is out of range; the embedding uses `getD` and
  theorems about it carry an in-range hypothesis.
-/

namespace Lstr

/-- One filesystem node of the master list, mirroring `FileEntry`
(src/tui.rs:42-51). -/
structure FileEntry where
  path : String
  depth : Nat
  is_dir : Bool
  is_expanded : Bool
  size : Option Nat
  permissions : Option String
  git_status : Option Nat
deriving DecidableEq, Repr

/-- Default entry used with `List.getD`; never an element of any list the
theorems quantify over with in-range indices. -/
def dE : FileEntry :=
  { path := "", depth := 0, is_dir := false, is_expanded := false,
    size := none, permissions := none, git_status := none }

/-- The body of the `while parent_expanded_stack.len() >= entry.depth`
loop (src/tui.rs:87-89), with an explicit fuel so the recursion is
structural (each pop shortens the stack, so `stack.length` rounds always
suffice; the fuel only mirrors that strictly decreasing length). -/
def popWhileGo {α : Type} : Nat → List α → Nat → List α
  | 0, stack, _ => stack
  | fuel + 1, stack, d =>
    if d ≤ stack.length ∧ 0 < stack.length then popWhileGo fuel stack.dropLast d
    else stack

/-- The `while parent_expanded_stack.len() >= entry.depth { pop }` loop of
`regenerate_visible_entries` (src/tui.rs:87-89).  The stack top is the last
list element, as in `Vec`.  The extra `0 < stack.length` guard only makes
the function total where the Rust loop would spin forever (depth 0 with an
empty stack), a situation excluded by `isPreOrder`. -/
def popWhile {α : Type} (stack : List α) (d : Nat) : List α :=
  popWhileGo stack.length stack d

/-- One iteration's effect on `parent_expanded_stack`
(src/tui.rs:87-95): pop to below the entry's depth, then push the entry's
own `is_expanded` if it is a directory. -/
def stackStep (stack : List Bool) (e : FileEntry) : List Bool :=
  if e.is_dir then popWhile stack e.depth ++ [e.is_expanded] else popWhile stack e.depth

/-- The loop body of `regenerate_visible_entries` (src/tui.rs:86-96):
an entry is emitted when every boolean remaining on the popped stack is
true. -/
def regenAux : List Bool → List FileEntry → List FileEntry
  | _, [] => []
  | stack, e :: rest =>
    if (popWhile stack e.depth).all (fun b => b) then
      e :: regenAux (stackStep stack e) rest
    else
      regenAux (stackStep stack e) rest

/-- `AppState::regenerate_visible_entries` (src/tui.rs:83-97) as a function
from the master list to the fresh visible list. -/
def regenerate_visible_entries (master : List FileEntry) : List FileEntry :=
  regenAux [] master

/-- Well-formedness of a depth-annotated pre-order listing: every depth is
at least 1 and at most the running bound, where a directory allows its
successor to go one level deeper and a file does not. -/
def preOrder (bound : Nat) : List FileEntry → Bool
  | [] => true
  | e :: rest =>
    decide (1 ≤ e.depth) && decide (e.depth ≤ bound) &&
      preOrder (if e.is_dir then e.depth + 1 else e.depth) rest

/-- A master list as produced by the scan: pre-order with the root's
children at depth 1. -/
def isPreOrder (l : List FileEntry) : Bool := preOrder 1 l

/-- Spec-side definition: `l.getD j dE` is a directory ancestor of the
entry at index `i` when it is a directory strictly before `i` and every
entry after it up to and including `i` lies strictly deeper, i.e. `i` is
inside its subtree. -/
def isAncestor (l : List FileEntry) (j i : Nat) : Bool :=
  decide (j < i) && (l.getD j dE).is_dir &&
    (List.range (i + 1)).all
      (fun m => decide (m ≤ j) || decide ((l.getD j dE).depth < (l.getD m dE).depth))

/-- Spec-side definition: the entry at index `i` should be visible exactly
when every directory ancestor of it is expanded. -/
def visSpecAt (l : List FileEntry) (i : Nat) : Bool :=
  (List.range i).all (fun j => !(isAncestor l j i) || (l.getD j dE).is_expanded)

/-- Spec-side definition: the visible list demanded by the specification —
the subsequence of the master list of the entries all of whose directory
ancestors are expanded. -/
def specVisible (l : List FileEntry) : List FileEntry :=
  ((List.range l.length).filter (fun i => visSpecAt l i)).map (fun i => l.getD i dE)

/-- Proof device: index `j` is an "open directory" at scan position `i` —
a directory every entry after which (up to position `i` exclusive) lies
strictly deeper.  These are exactly the indices whose expand flags the
stack holds just before entry `i` is examined. -/
def openAt (l : List FileEntry) (i j : Nat) : Bool :=
  (l.getD j dE).is_dir &&
    (List.range i).all
      (fun m => decide (m ≤ j) || decide ((l.getD j dE).depth < (l.getD m dE).depth))

/-- Proof device: the open directories at position `i`, in stack order
(outermost first). -/
def openDirs (l : List FileEntry) (i : Nat) : List FileEntry :=
  ((List.range i).filter (fun j => openAt l i j)).map (fun j => l.getD j dE)

/-- Proof device: `stackStep` lifted to whole entries instead of expand
flags, so that the stack contents can be named. -/
def chainStep (c : List FileEntry) (e : FileEntry) : List FileEntry :=
  if e.is_dir then popWhile c e.depth ++ [e] else popWhile c e.depth

/-- Proof device: the entry-level stack just before entry `i` is examined. -/
def chainUpTo (l : List FileEntry) (i : Nat) : List FileEntry :=
  (l.take i).foldl chainStep []

/-- Proof device: `parent_expanded_stack` just before entry `i` is
examined. -/
def stackUpTo (l : List FileEntry) (i : Nat) : List Bool :=
  (l.take i).foldl stackStep []

/-- Proof device: the boolean the algorithm computes for entry `i` — all
flags on the popped stack are true. -/
def includedAt (l : List FileEntry) (i : Nat) : Bool :=
  (popWhile (stackUpTo l i) ((l.getD i dE).depth)).all (fun b => b)

/-! ### Basic facts about the stack primitive -/

theorem popWhileGo_eq_take {α : Type} : ∀ (fuel : Nat) (stack : List α) (d : Nat),
    stack.length ≤ fuel → popWhileGo fuel stack d = stack.take (d - 1)
  | 0, stack, d, hf => by
    have hnil : stack = [] := List.length_eq_zero.mp (by omega)
    subst hnil; simp [popWhileGo]
  | fuel + 1, stack, d, hf => by
    rw [popWhileGo]
    split
    · next h =>
      rw [popWhileGo_eq_take fuel stack.dropLast d (by
        simp only [List.length_dropLast]; omega)]
      rw [List.dropLast_eq_take, List.take_take]
      congr 1
      omega
    · next h =>
      by_cases hn : stack.length = 0
      · have hnil : stack = [] := List.length_eq_zero.mp hn
        subst hnil; simp
      · have hlt : stack.length < d := by
          rcases Nat.lt_or_ge stack.length d with h2 | h2
          · exact h2
          · exact absurd ⟨h2, by omega⟩ h
        exact (List.take_of_length_le (by omega)).symm

/-- Popping from the tail until the length is below `d` is taking the
first `d - 1` elements. -/
theorem popWhile_eq_take {α : Type} (stack : List α) (d : Nat) :
    popWhile stack d = stack.take (d - 1) :=
  popWhileGo_eq_take stack.length stack d (Nat.le_refl _)

theorem popWhile_map {α β : Type} (f : α → β) (c : List α) (d : Nat) :
    popWhile (c.map f) d = (popWhile c d).map f := by
  rw [popWhile_eq_take, popWhile_eq_take, List.map_take]

theorem length_popWhile {α : Type} (c : List α) (d : Nat) :
    (popWhile c d).length = min (d - 1) c.length := by
  rw [popWhile_eq_take, List.length_take]

/-- The emitted entries are a subsequence of the processed ones (the
algorithm only decides, per entry, whether to copy it). -/
theorem regenAux_sublist : ∀ (stack : List Bool) (l : List FileEntry),
    (regenAux stack l).Sublist l
  | _, [] => List.Sublist.slnil
  | stack, e :: rest => by
    rw [regenAux]
    split
    · exact List.Sublist.cons₂ e (regenAux_sublist _ rest)
    · exact List.Sublist.cons e (regenAux_sublist _ rest)

/-- The boolean stack is the image of the entry-level stack under
`is_expanded`, one step. -/
theorem stackStep_map (c : List FileEntry) (e : FileEntry) :
    stackStep (c.map FileEntry.is_expanded) e = (chainStep c e).map FileEntry.is_expanded := by
  unfold stackStep chainStep
  split
  · rw [popWhile_map]; simp
  · rw [popWhile_map]

/-- The boolean stack is the image of the entry-level stack under
`is_expanded`, whole fold. -/
theorem foldl_stackStep_map : ∀ (es : List FileEntry) (c : List FileEntry),
    es.foldl stackStep (c.map FileEntry.is_expanded) =
      (es.foldl chainStep c).map FileEntry.is_expanded
  | [], _ => rfl
  | e :: es, c => by
    rw [List.foldl_cons, List.foldl_cons, stackStep_map, foldl_stackStep_map es _]

theorem stackUpTo_eq_map_chainUpTo (l : List FileEntry) (i : Nat) :
    stackUpTo l i = (chainUpTo l i).map FileEntry.is_expanded := by
  have h := foldl_stackStep_map (l.take i) []
  simpa [stackUpTo, chainUpTo] using h

/-! ### The algorithm as an index filter -/

theorem take_succ_getD (l : List FileEntry) (i : Nat) (h : i < l.length) :
    l.take (i + 1) = l.take i ++ [l.getD i dE] := by
  rw [List.take_succ]
  congr 1
  rw [List.getElem?_eq_getElem h]
  rw [List.getD_eq_getElem l dE h]
  rfl

theorem getD_append_left (l l₂ : List FileEntry) (i : Nat) (h : i < l.length) :
    (l ++ l₂).getD i dE = l.getD i dE := by
  rw [List.getD_eq_getElem (l ++ l₂) dE (by simp; omega),
    List.getD_eq_getElem l dE h, List.getElem_append_left]

theorem regenAux_append : ∀ (l : List FileEntry) (e : FileEntry) (stack : List Bool),
    regenAux stack (l ++ [e]) =
      regenAux stack l ++
        (if (popWhile (l.foldl stackStep stack) e.depth).all (fun b => b) then [e] else [])
  | [], e, stack => by
    simp [regenAux]
  | a :: l, e, stack => by
    simp only [List.cons_append, regenAux, List.foldl_cons, List.append_eq]
    split
    · rw [regenAux_append l e _]; rfl
    · rw [regenAux_append l e _]

theorem stackUpTo_append (l : List FileEntry) (e : FileEntry) (i : Nat)
    (h : i ≤ l.length) : stackUpTo (l ++ [e]) i = stackUpTo l i := by
  unfold stackUpTo
  rw [List.take_append_of_le_length h]

theorem includedAt_append (l : List FileEntry) (e : FileEntry) (i : Nat)
    (h : i < l.length) : includedAt (l ++ [e]) i = includedAt l i := by
  unfold includedAt
  rw [stackUpTo_append l e i (Nat.le_of_lt h), getD_append_left l [e] i h]

/-- The recomputed visible list consists exactly of the entries at the
indices the stack test accepts, in index order. -/
theorem regen_eq_filter_included (l : List FileEntry) :
    regenerate_visible_entries l =
      ((List.range l.length).filter (fun i => includedAt l i)).map (fun i => l.getD i dE) := by
  induction l using List.reverseRecOn with
  | nil => rfl
  | append_singleton l e ih =>
    have hlen : (l ++ [e]).length = l.length + 1 := by simp
    have hstack : l.foldl stackStep [] = stackUpTo (l ++ [e]) l.length := by
      unfold stackUpTo
      rw [List.take_append_of_le_length (Nat.le_refl l.length), List.take_length]
    have hgetD : (l ++ [e]).getD l.length dE = e := by
      rw [List.getD_eq_getElem (l ++ [e]) dE (by simp), List.getElem_concat_length]
      rfl
    have hcond : ((popWhile (l.foldl stackStep []) e.depth).all (fun b => b))
        = includedAt (l ++ [e]) l.length := by
      unfold includedAt
      rw [hstack, hgetD]
    have hfilter : (List.range l.length).filter (fun i => includedAt (l ++ [e]) i)
        = (List.range l.length).filter (fun i => includedAt l i) := by
      apply List.filter_congr
      intro i hi
      rw [List.mem_range] at hi
      rw [includedAt_append l e i hi]
    have hmap : ∀ (L : List Nat), (∀ i ∈ L, i < l.length) →
        L.map (fun i => (l ++ [e]).getD i dE) = L.map (fun i => l.getD i dE) := by
      intro L hL
      apply List.map_congr_left
      intro i hi
      exact getD_append_left l [e] i (hL i hi)
    have hr : List.range (l.length + 1) = List.range l.length ++ [l.length] := by
      simpa using List.range_succ (n := l.length)
    have h1 : regenAux [] l
        = ((List.range l.length).filter (fun i => includedAt (l ++ [e]) i)).map
            (fun i => (l ++ [e]).getD i dE) := by
      rw [hfilter]
      rw [hmap _ (fun i hi => List.mem_range.mp (List.mem_of_mem_filter hi))]
      exact ih
    have h2 : (([l.length].filter (fun i => includedAt (l ++ [e]) i)).map
          (fun i => (l ++ [e]).getD i dE))
        = (if includedAt (l ++ [e]) l.length then [e] else []) := by
      simp only [List.filter_cons, List.filter_nil]
      split
      · simp [hgetD]
      · rfl
    show regenAux [] (l ++ [e]) = _
    rw [regenAux_append l e [], hcond, h1, hlen, hr, List.filter_append,
      List.map_append, h2]

/-! ### The stack invariant: the stack holds exactly the open directories -/

/-- Proof device: the entries of a chain have consecutive depths starting
at `a`. -/
def depthsFrom : Nat → List FileEntry → Prop
  | _, [] => True
  | a, e :: rest => e.depth = a ∧ depthsFrom (a + 1) rest

theorem depthsFrom_take : ∀ (c : List FileEntry) (a n : Nat),
    depthsFrom a c → depthsFrom a (c.take n)
  | [], _, _, _ => by simp [depthsFrom]
  | _ :: _, _, 0, _ => trivial
  | e :: c, a, n + 1, h => ⟨h.1, depthsFrom_take c (a + 1) n h.2⟩

theorem depthsFrom_append : ∀ (c : List FileEntry) (a : Nat) (e : FileEntry),
    depthsFrom a c → e.depth = a + c.length → depthsFrom a (c ++ [e])
  | [], a, e, _, hd => ⟨by simpa using hd, trivial⟩
  | e' :: c, a, e, h, hd =>
    ⟨h.1, depthsFrom_append c (a + 1) e h.2 (by simp at hd ⊢; omega)⟩

/-- On a chain of consecutive depths from `a`, keeping the entries of depth
below `d` is taking the first `d - a`. -/
theorem depthsFrom_filter_lt : ∀ (c : List FileEntry) (a d : Nat),
    depthsFrom a c →
    c.filter (fun e' => decide (e'.depth < d)) = c.take (d - a)
  | [], _, _, _ => by simp
  | e :: c, a, d, h => by
    rw [List.filter_cons]
    by_cases hlt : e.depth < d
    · have ha : a < d := by rw [h.1] at hlt; exact hlt
      have hda : d - a = (d - (a + 1)) + 1 := by omega
      rw [if_pos (by simpa using hlt), hda, List.take_succ_cons,
        depthsFrom_filter_lt c (a + 1) d h.2]
    · have ha : ¬ a < d := by rw [h.1] at hlt; exact hlt
      have hda : d - a = 0 := by omega
      have hda' : d - (a + 1) = 0 := by omega
      rw [if_neg (by simpa using hlt), hda, List.take_zero,
        depthsFrom_filter_lt c (a + 1) d h.2, hda', List.take_zero]

theorem chainUpTo_succ (l : List FileEntry) (i : Nat) (h : i < l.length) :
    chainUpTo l (i + 1) = chainStep (chainUpTo l i) (l.getD i dE) := by
  unfold chainUpTo
  rw [take_succ_getD l i h, List.foldl_append]
  rfl

theorem drop_eq_getD_cons (l : List FileEntry) (i : Nat) (h : i < l.length) :
    l.drop i = l.getD i dE :: l.drop (i + 1) := by
  rw [List.drop_eq_getElem_cons h, List.getD_eq_getElem l dE h]

theorem openAt_last (l : List FileEntry) (i : Nat) :
    openAt l (i + 1) i = (l.getD i dE).is_dir := by
  unfold openAt
  have hall : (List.range (i + 1)).all
      (fun m => decide (m ≤ i) ||
        decide ((l.getD i dE).depth < (l.getD m dE).depth)) = true := by
    rw [List.all_eq_true]
    intro m hm
    rw [List.mem_range] at hm
    simp [Nat.lt_succ_iff.mp hm]
  rw [hall, Bool.and_true]

theorem openAt_lt (l : List FileEntry) (i j : Nat) (hj : j < i) :
    openAt l (i + 1) j =
      (openAt l i j && decide ((l.getD j dE).depth < (l.getD i dE).depth)) := by
  unfold openAt
  have hr : List.range (i + 1) = List.range i ++ [i] := by
    simpa using List.range_succ (n := i)
  rw [hr, List.all_append]
  have hij : decide (i ≤ j) = false := by simp; omega
  simp only [List.all_cons, List.all_nil, Bool.and_true, hij, Bool.false_or]
  cases h1 : (l.getD j dE).is_dir <;>
    cases h2 : (List.range i).all
      (fun m => decide (m ≤ j) ||
        decide ((l.getD j dE).depth < (l.getD m dE).depth)) <;>
    cases h3 : decide ((l.getD j dE).depth < (l.getD i dE).depth) <;> simp [h1, h2, h3]

theorem openDirs_succ (l : List FileEntry) (i : Nat) :
    openDirs l (i + 1) =
      ((openDirs l i).filter
          (fun e' => decide (e'.depth < (l.getD i dE).depth))) ++
        (if (l.getD i dE).is_dir then [l.getD i dE] else []) := by
  have hr : List.range (i + 1) = List.range i ++ [i] := by
    simpa using List.range_succ (n := i)
  have hmain :
      ((List.range i).filter (fun j => openAt l (i + 1) j)).map (fun j => l.getD j dE) =
        ((openDirs l i).filter
          (fun e' => decide (e'.depth < (l.getD i dE).depth))) := by
    unfold openDirs
    rw [List.filter_map]
    congr 1
    rw [List.filter_filter]
    apply List.filter_congr
    intro j hj
    rw [List.mem_range] at hj
    rw [openAt_lt l i j hj]
    cases h1 : openAt l i j <;>
      cases h2 : decide ((l.getD j dE).depth < (l.getD i dE).depth) <;>
        simp only [Function.comp_apply, h1, h2, Bool.and_true, Bool.true_and,
          Bool.and_false, Bool.false_and]
  have hlast :
      (([i].filter (fun j => openAt l (i + 1) j)).map (fun j => l.getD j dE)) =
        (if (l.getD i dE).is_dir then [l.getD i dE] else []) := by
    simp only [List.filter_cons, List.filter_nil, openAt_last]
    split
    · simp
    · simp
  calc openDirs l (i + 1)
      = ((List.range i).filter (fun j => openAt l (i + 1) j)).map (fun j => l.getD j dE) ++
          (([i].filter (fun j => openAt l (i + 1) j)).map (fun j => l.getD j dE)) := by
        unfold openDirs
        rw [hr, List.filter_append, List.map_append]
    _ = _ := by rw [hmain, hlast]

/-- The invariant of the visibility scan: just before entry `i` is
examined, the entry-level stack is exactly the list of open directories at
position `i`, their depths are `1, 2, …`, and the rest of the master list
is pre-order-compatible with the stack height. -/
theorem chain_invariant (l : List FileEntry) (hpre : isPreOrder l = true) :
    ∀ i, i ≤ l.length →
      chainUpTo l i = openDirs l i ∧
      depthsFrom 1 (chainUpTo l i) ∧
      preOrder ((chainUpTo l i).length + 1) (l.drop i) = true := by
  intro i
  induction i with
  | zero =>
    intro _
    refine ⟨rfl, trivial, ?_⟩
    simpa [chainUpTo] using hpre
  | succ i ih =>
    intro hle
    have hi : i < l.length := by omega
    obtain ⟨hchain, hdepths, hpre'⟩ := ih (by omega)
    have hdrop : l.drop i = l.getD i dE :: l.drop (i + 1) := drop_eq_getD_cons l i hi
    rw [hdrop, preOrder] at hpre'
    simp only [Bool.and_eq_true, decide_eq_true_eq] at hpre'
    obtain ⟨⟨hd1, hdle⟩, hprerest⟩ := hpre'
    have hstep : chainUpTo l (i + 1) = chainStep (chainUpTo l i) (l.getD i dE) :=
      chainUpTo_succ l i hi
    have hpop : popWhile (chainUpTo l i) ((l.getD i dE).depth)
        = (chainUpTo l i).take ((l.getD i dE).depth - 1) := popWhile_eq_take ..
    have hlenpop : ((chainUpTo l i).take ((l.getD i dE).depth - 1)).length
        = (l.getD i dE).depth - 1 := by
      rw [List.length_take]
      omega
    have hfilter : (chainUpTo l i).filter
          (fun e' => decide (e'.depth < (l.getD i dE).depth))
        = (chainUpTo l i).take ((l.getD i dE).depth - 1) :=
      depthsFrom_filter_lt (chainUpTo l i) 1 ((l.getD i dE).depth) hdepths
    refine ⟨?_, ?_, ?_⟩
    · rw [hstep, openDirs_succ, ← hchain, chainStep, hfilter, hpop]
      split
      · rfl
      · simp
    · rw [hstep, chainStep, hpop]
      split
      · exact depthsFrom_append _ 1 _
          (depthsFrom_take (chainUpTo l i) 1 _ hdepths) (by rw [hlenpop]; omega)
      · exact depthsFrom_take (chainUpTo l i) 1 _ hdepths
    · rw [hstep, chainStep, hpop]
      split
      · next hdir =>
        rw [hdir] at hprerest
        have hlen2 : ((chainUpTo l i).take ((l.getD i dE).depth - 1) ++
            [l.getD i dE]).length + 1 = (l.getD i dE).depth + 1 := by
          simp only [List.length_append, List.length_cons, List.length_nil, hlenpop]
          omega
        rw [hlen2]
        exact hprerest
      · next hdir =>
        have hdir' : (l.getD i dE).is_dir = false := by
          cases h : (l.getD i dE).is_dir
          · rfl
          · exact absurd h hdir
        rw [hdir'] at hprerest
        have hlen2 : ((chainUpTo l i).take ((l.getD i dE).depth - 1)).length + 1
            = (l.getD i dE).depth := by
          rw [hlenpop]; omega
        rw [hlen2]
        exact hprerest

/-! ### The algorithm's test equals the ancestor-based specification -/

theorem all_filter_or {α : Type} (L : List α) (q p : α → Bool) :
    (L.filter q).all p = L.all (fun x => !(q x) || p x) := by
  induction L with
  | nil => rfl
  | cons a L ih =>
    rw [List.filter_cons, List.all_cons]
    split
    · next h => rw [List.all_cons, ih, h]; simp
    · next h =>
      have h' : q a = false := by
        cases hq : q a
        · rfl
        · exact absurd hq h
      rw [ih, h']
      simp

theorem all_map_on {α β : Type} (L : List α) (f : α → β) (p : β → Bool) :
    (L.map f).all p = L.all (fun x => p (f x)) := by
  induction L with
  | nil => rfl
  | cons a L ih => rw [List.map_cons, List.all_cons, List.all_cons, ih]

theorem all_congr_on {α : Type} (L : List α) (p q : α → Bool)
    (h : ∀ a ∈ L, p a = q a) : L.all p = L.all q := by
  induction L with
  | nil => rfl
  | cons a L ih =>
    rw [List.all_cons, List.all_cons, h a (by simp),
      ih (fun b hb => h b (by simp [hb]))]

theorem isAncestor_eq_openAt (l : List FileEntry) (i j : Nat) (hj : j < i) :
    isAncestor l j i =
      (openAt l i j && decide ((l.getD j dE).depth < (l.getD i dE).depth)) := by
  unfold isAncestor openAt
  have hr : List.range (i + 1) = List.range i ++ [i] := by
    simpa using List.range_succ (n := i)
  have hji : decide (j < i) = true := by simpa using hj
  have hij : decide (i ≤ j) = false := by simp; omega
  rw [hr, List.all_append, hji]
  simp only [List.all_cons, List.all_nil, Bool.and_true, hij, Bool.false_or,
    Bool.true_and]
  cases h1 : (l.getD j dE).is_dir <;>
    cases h2 : (List.range i).all
      (fun m => decide (m ≤ j) ||
        decide ((l.getD j dE).depth < (l.getD m dE).depth)) <;>
    cases h3 : decide ((l.getD j dE).depth < (l.getD i dE).depth) <;>
      simp only [h1, h2, h3, Bool.and_true, Bool.true_and, Bool.and_false,
        Bool.false_and]

/-- The boolean the stack algorithm computes for entry `i` coincides with
the ancestor-based visibility specification, on well-formed master
lists. -/
theorem includedAt_eq_visSpecAt (l : List FileEntry) (hpre : isPreOrder l = true)
    (i : Nat) (hi : i < l.length) : includedAt l i = visSpecAt l i := by
  obtain ⟨hchain, hdepths, _⟩ := chain_invariant l hpre i (Nat.le_of_lt hi)
  have h1 : includedAt l i
      = ((chainUpTo l i).take ((l.getD i dE).depth - 1)).all FileEntry.is_expanded := by
    unfold includedAt
    rw [stackUpTo_eq_map_chainUpTo, popWhile_map, all_map_on, popWhile_eq_take]
  have hfilter : (chainUpTo l i).filter
        (fun e' => decide (e'.depth < (l.getD i dE).depth))
      = (chainUpTo l i).take ((l.getD i dE).depth - 1) :=
    depthsFrom_filter_lt (chainUpTo l i) 1 ((l.getD i dE).depth) hdepths
  rw [h1, ← hfilter, hchain]
  unfold openDirs
  rw [List.filter_map, all_map_on, all_filter_or, all_filter_or]
  unfold visSpecAt
  apply all_congr_on
  intro j hjmem
  rw [List.mem_range] at hjmem
  rw [isAncestor_eq_openAt l i j hjmem]
  cases h1 : openAt l i j <;>
    cases h2 : decide ((l.getD j dE).depth < (l.getD i dE).depth) <;>
      cases h3 : (l.getD j dE).is_expanded <;>
        simp only [Function.comp_apply, h1, h2, h3, Bool.not_true, Bool.not_false,
          Bool.true_or, Bool.or_true, Bool.false_or, Bool.or_false,
          Bool.and_true, Bool.true_and, Bool.and_false, Bool.false_and]

theorem depth_pos_of_preOrder (l : List FileEntry) (hpre : isPreOrder l = true)
    (i : Nat) (hi : i < l.length) : 1 ≤ (l.getD i dE).depth := by
  obtain ⟨_, _, hpre'⟩ := chain_invariant l hpre i (Nat.le_of_lt hi)
  rw [drop_eq_getD_cons l i hi, preOrder] at hpre'
  simp only [Bool.and_eq_true, decide_eq_true_eq] at hpre'
  exact hpre'.1.1

/-- A depth-1 entry has no directory ancestor, hence is always visible
according to the specification. -/
theorem visSpecAt_of_depth_one (l : List FileEntry) (hpre : isPreOrder l = true)
    (i : Nat) (hi : i < l.length) (hd : (l.getD i dE).depth = 1) :
    visSpecAt l i = true := by
  unfold visSpecAt
  rw [List.all_eq_true]
  intro j hjmem
  rw [List.mem_range] at hjmem
  have hanc : isAncestor l j i = false := by
    cases hA : isAncestor l j i
    · rfl
    · exfalso
      unfold isAncestor at hA
      rw [Bool.and_eq_true, Bool.and_eq_true, List.all_eq_true] at hA
      obtain ⟨⟨hji, hdir⟩, hall⟩ := hA
      have hmem : i ∈ List.range (i + 1) := by
        rw [List.mem_range]; omega
      have hP := hall i hmem
      simp only [Bool.or_eq_true, decide_eq_true_eq] at hP
      rcases hP with h | h
      · omega
      · rw [hd] at h
        have hjlen : j < l.length := by omega
        have := depth_pos_of_preOrder l hpre j hjlen
        omega
  rw [hanc]
  simp

/-- On a well-formed master list the recomputed visible list is exactly the
specification's visible list. -/
theorem regen_eq_specVisible (l : List FileEntry) (hpre : isPreOrder l = true) :
    regenerate_visible_entries l = specVisible l := by
  rw [regen_eq_filter_included, specVisible]
  congr 1
  apply List.filter_congr
  intro i hi
  rw [List.mem_range] at hi
  exact includedAt_eq_visSpecAt l hpre i hi

/-! ### The interactive state and its operations -/

/-- `struct AppState` (src/tui.rs:53-57); ratatui's `ListState` is reduced
to its `selected` field. -/
structure AppState where
  master_entries : List FileEntry
  visible_entries : List FileEntry
  list_state : Option Nat
deriving DecidableEq, Repr

/-- `AppState::next` (src/tui.rs:99-111).  `Nat` subtraction truncates
where the Rust `self.visible_entries.len() - 1` underflows (empty visible
list, debug-build panic); theorems touching that branch note it. -/
def AppState.next (s : AppState) : AppState :=
  let i := match s.list_state with
    | some i => if s.visible_entries.length - 1 ≤ i then 0 else i + 1
    | none => 0
  { s with list_state := some i }

/-- `AppState::previous` (src/tui.rs:113-125), same subtraction caveat. -/
def AppState.previous (s : AppState) : AppState :=
  let i := match s.list_state with
    | some i => if i = 0 then s.visible_entries.length - 1 else i - 1
    | none => 0
  { s with list_state := some i }

/-- `AppState::get_selected_entry` (src/tui.rs:127-129). -/
def AppState.get_selected_entry (s : AppState) : Option FileEntry :=
  s.list_state.bind (fun i => s.visible_entries.get? i)

/-- The `find` + flip of `toggle_selected_directory` (src/tui.rs:134-140):
flip `is_expanded` of the first master entry whose path matches, if that
entry is a directory; touch nothing otherwise. -/
def toggleFlag : List FileEntry → String → List FileEntry
  | [], _ => []
  | e :: rest, p =>
    if e.path = p then
      (if e.is_dir then { e with is_expanded := ! e.is_expanded } else e) :: rest
    else
      e :: toggleFlag rest p

/-- `AppState::toggle_selected_directory` (src/tui.rs:131-151).  The Rust
code indexes `self.visible_entries[selected_index]`, a panic when the
index is out of range; the embedding reads `getD` there, and every theorem
about this operation assumes the index in range. -/
def AppState.toggle_selected_directory (s : AppState) : AppState :=
  match s.list_state with
  | none => s
  | some selected_index =>
    let selected_path := (s.visible_entries.getD selected_index dE).path
    let master' := toggleFlag s.master_entries selected_path
    let visible' := regenerate_visible_entries master'
    match visible'.findIdx? (fun e => e.path == selected_path) with
    | some new_index =>
      { master_entries := master', visible_entries := visible',
        list_state := some new_index }
    | none =>
      { master_entries := master', visible_entries := visible',
        list_state := some (min selected_index (visible'.length - 1)) }

/-- The `expand_level` loop of `AppState::new` (src/tui.rs:66-72). -/
def applyExpandLevel (entries : List FileEntry) (expand_level : Option Nat) :
    List FileEntry :=
  match expand_level with
  | some lvl =>
    entries.map (fun e =>
      if e.is_dir && decide (e.depth < lvl) then { e with is_expanded := true } else e)
  | none => entries

/-- `AppState::new` (src/tui.rs:60-81) downstream of the scan: the scan
result is a parameter (`scan_directory` is filesystem I/O; its one
relevant algebraic property — every entry is created with
`is_expanded = false`, src/tui.rs:327 — appears as a hypothesis where
needed). -/
def AppState.new (scanned : List FileEntry) (expand_level : Option Nat) : AppState :=
  let master := applyExpandLevel scanned expand_level
  let visible := regenerate_visible_entries master
  { master_entries := master, visible_entries := visible,
    list_state := if visible.isEmpty then none else some 0 }

/-! ### The terminal-mode lifecycle of `run` -/

/-- `PostExitAction` (src/tui.rs:37-40). -/
inductive PostExitAction
  | noAction
  | openFile (path : String)
deriving DecidableEq, Repr

/-- Whether the terminal is in raw/alternate-screen mode. -/
inductive TerminalMode
  | normal
  | raw
deriving DecidableEq, Repr

/-- `restore_terminal` (src/tui.rs:366-371): leaves raw/alternate-screen
mode. -/
def restore_terminal (_m : TerminalMode) : TerminalMode :=
  TerminalMode.normal

/-- The tail of `run` (src/tui.rs:164-179) after `setup_terminal`
succeeded (so the terminal is in raw mode), shallowly embedded over the
outcome of `run_app`: `let post_exit_action = run_app(...)?` returns the
error early, before `restore_terminal(&mut terminal)?` can run, so on the error
path the mode stays raw; only the `Ok` path reaches `restore_terminal`. -/
def run_after_setup (run_app_result : Except String PostExitAction) :
    Except String PostExitAction × TerminalMode :=
  match run_app_result with
  | Except.error e => (Except.error e, TerminalMode.raw)
  | Except.ok action => (Except.ok action, restore_terminal TerminalMode.raw)

/-! ### Facts about `toggleFlag` -/

theorem getD_mem (l : List FileEntry) (i : Nat) (h : i < l.length) :
    l.getD i dE ∈ l := by
  rw [List.getD_eq_getElem l dE h]
  exact List.getElem_mem ..

theorem toggleFlag_length : ∀ (m : List FileEntry) (p : String),
    (toggleFlag m p).length = m.length
  | [], _ => rfl
  | e :: rest, p => by
    rw [toggleFlag]
    split
    · simp
    · simp [toggleFlag_length rest p]

/-- Under unique paths, `toggleFlag` flips exactly the matching directory
entry's flag and reproduces every entry otherwise. -/
theorem toggleFlag_getD : ∀ (m : List FileEntry) (p : String),
    (m.map FileEntry.path).Nodup →
    ∀ i, i < m.length →
      (toggleFlag m p).getD i dE =
        (if (m.getD i dE).path = p ∧ (m.getD i dE).is_dir then
          { m.getD i dE with is_expanded := ! (m.getD i dE).is_expanded }
        else m.getD i dE)
  | [], p, _, i, hi => by simp at hi
  | e :: rest, p, hu, i, hi => by
    rw [List.map_cons, List.nodup_cons] at hu
    rw [toggleFlag]
    by_cases h : e.path = p
    · rw [if_pos h]
      cases i with
      | zero =>
        simp only [List.getD_cons_zero]
        by_cases hd : e.is_dir = true
        · rw [if_pos hd, if_pos ⟨h, hd⟩]
        · rw [if_neg hd, if_neg (fun hc => hd hc.2)]
      | succ j =>
        simp only [List.getD_cons_succ]
        have hj : j < rest.length := by simpa using hi
        have hne : (rest.getD j dE).path ≠ p := by
          intro hc
          apply hu.1
          rw [h, ← hc]
          exact List.mem_map_of_mem FileEntry.path (getD_mem rest j hj)
        rw [if_neg (fun hc => hne hc.1)]
    · rw [if_neg h]
      cases i with
      | zero =>
        simp only [List.getD_cons_zero]
        rw [if_neg (fun hc => h hc.1)]
      | succ j =>
        simp only [List.getD_cons_succ]
        have hj : j < rest.length := by simpa using hi
        exact toggleFlag_getD rest p hu.2 j hj

/-- Toggling the same path twice restores the master list: the same first
match is found, and the flip is an involution. -/
theorem toggleFlag_toggleFlag : ∀ (m : List FileEntry) (p : String),
    toggleFlag (toggleFlag m p) p = m
  | [], _ => rfl
  | e :: rest, p => by
    rw [toggleFlag]
    by_cases h : e.path = p
    · rw [if_pos h]
      by_cases hd : e.is_dir = true
      · rw [if_pos hd, toggleFlag, if_pos (show ({ e with is_expanded := ! e.is_expanded } : FileEntry).path = p from h),
          if_pos (show ({ e with is_expanded := ! e.is_expanded } : FileEntry).is_dir = true from hd)]
        congr 1
        cases e
        simp
      · rw [if_neg hd, toggleFlag, if_pos h, if_neg hd]
    · rw [if_neg h, toggleFlag, if_neg h, toggleFlag_toggleFlag rest p]

theorem toggleFlag_append_of_ne : ∀ (m₁ m₂ : List FileEntry) (p : String),
    (∀ e ∈ m₁, e.path ≠ p) →
    toggleFlag (m₁ ++ m₂) p = m₁ ++ toggleFlag m₂ p
  | [], _, _, _ => rfl
  | e :: m₁, m₂, p, h => by
    rw [List.cons_append, toggleFlag, if_neg (h e (by simp)),
      toggleFlag_append_of_ne m₁ m₂ p (fun x hx => h x (by simp [hx])), List.cons_append]

theorem getD_append_length (m₁ m₂ : List FileEntry) (e : FileEntry) :
    (m₁ ++ e :: m₂).getD m₁.length dE = e := by
  induction m₁ with
  | nil => rfl
  | cons a m₁ ih => simpa using ih

theorem take_getD_drop (l : List FileEntry) (k : Nat) (hk : k < l.length) :
    l = l.take k ++ (l.getD k dE :: l.drop (k + 1)) := by
  conv_lhs => rw [← List.take_append_drop k l]
  rw [drop_eq_getD_cons l k hk]

/-- With unique paths, no entry strictly before index `k` shares the path
of the entry at `k`. -/
theorem path_ne_of_nodup_take (l : List FileEntry) (k : Nat) (hk : k < l.length)
    (hu : (l.map FileEntry.path).Nodup) :
    ∀ e ∈ l.take k, e.path ≠ (l.getD k dE).path := by
  intro e he hc
  have hdecomp := take_getD_drop l k hk
  rw [hdecomp, List.map_append, List.map_cons] at hu
  rw [List.nodup_middle, List.nodup_cons] at hu
  apply hu.1
  rw [List.mem_append]
  left
  rw [← hc]
  exact List.mem_map_of_mem FileEntry.path he

/-! ### Facts about `List.findIdx?` (first-match position search) -/

theorem findIdx?_some_spec (p : FileEntry → Bool) :
    ∀ (l : List FileEntry) (s j : Nat), List.findIdx? p l s = some j →
      s ≤ j ∧ j - s < l.length ∧ p (l.getD (j - s) dE) = true ∧
        ∀ k, k < j - s → p (l.getD k dE) = false
  | [], s, j, h => by simp [List.findIdx?] at h
  | a :: l, s, j, h => by
    rw [List.findIdx?_cons] at h
    split at h
    · next hp =>
      have hsj : s = j := by injection h
      subst hsj
      refine ⟨Nat.le_refl _, by simp, by simpa using hp, ?_⟩
      intro k hk
      omega
    · next hp =>
      obtain ⟨h1, h2, h3, h4⟩ := findIdx?_some_spec p l (s + 1) j h
      have hpa : p a = false := by
        cases hq : p a
        · rfl
        · exact absurd hq hp
      refine ⟨by omega, by simp; omega, ?_, ?_⟩
      · have hd : j - s = (j - (s + 1)) + 1 := by omega
        rw [hd]
        simpa using h3
      · intro k hk
        cases k with
        | zero => simpa using hpa
        | succ k' =>
          have hk' : k' < j - (s + 1) := by omega
          simpa using h4 k' hk'

theorem findIdx?_none_spec (p : FileEntry → Bool) :
    ∀ (l : List FileEntry) (s : Nat), List.findIdx? p l s = none →
      ∀ k, k < l.length → p (l.getD k dE) = false
  | [], _, _, k, hk => by simp at hk
  | a :: l, s, h, k, hk => by
    rw [List.findIdx?_cons] at h
    split at h
    · exact absurd h (by simp)
    · next hp =>
      have hpa : p a = false := by
        cases hq : p a
        · rfl
        · exact absurd hq hp
      cases k with
      | zero => simpa using hpa
      | succ k' =>
        have hk' : k' < l.length := by simpa using hk
        simpa using findIdx?_none_spec p l (s + 1) h k' hk'

/-! ### Membership in the recomputed visible list -/

theorem mem_regen_of_included (l : List FileEntry) (k : Nat) (hk : k < l.length)
    (hinc : includedAt l k = true) :
    l.getD k dE ∈ regenerate_visible_entries l := by
  rw [regen_eq_filter_included]
  apply List.mem_map_of_mem
  rw [List.mem_filter]
  exact ⟨List.mem_range.mpr hk, hinc⟩

theorem exists_index_of_mem_regen (l : List FileEntry) (x : FileEntry)
    (hx : x ∈ regenerate_visible_entries l) :
    ∃ k, k < l.length ∧ includedAt l k = true ∧ l.getD k dE = x := by
  rw [regen_eq_filter_included] at hx
  obtain ⟨k, hk, hg⟩ := List.mem_map.mp hx
  rw [List.mem_filter, List.mem_range] at hk
  exact ⟨k, hk.1, hk.2, hg⟩

/-- The algorithm's decision about entry `k` reads only the entries before
`k` and the depth of entry `k`. -/
theorem includedAt_congr (l l' : List FileEntry) (k : Nat)
    (htake : l'.take k = l.take k)
    (hd : (l'.getD k dE).depth = (l.getD k dE).depth) :
    includedAt l' k = includedAt l k := by
  unfold includedAt stackUpTo
  rw [htake, hd]

/-! ### Concrete fixtures (the three-entry tree of the spec's scenarios) -/

def wSrc : FileEntry :=
  { path := "src", depth := 1, is_dir := true, is_expanded := false,
    size := none, permissions := some "drwxr-xr-x", git_status := none }

def wMain : FileEntry :=
  { path := "src/main.ext", depth := 2, is_dir := false, is_expanded := false,
    size := some 1024, permissions := none, git_status := none }

def wReadme : FileEntry :=
  { path := "README", depth := 1, is_dir := false, is_expanded := false,
    size := some 512, permissions := none, git_status := none }

def wMaster : List FileEntry := [wSrc, wMain, wReadme]

/-- Scenario A state: `src` collapsed, visible `[src, README]`, cursor on
`src`. -/
def wStateA : AppState :=
  { master_entries := wMaster,
    visible_entries := regenerate_visible_entries wMaster,
    list_state := some 0 }

def wMasterB : List FileEntry := [{ wSrc with is_expanded := true }, wMain, wReadme]

/-- Scenario B state: `src` expanded, visible
`[src, src/main.ext, README]`, cursor on `src/main.ext` (index 1). -/
def wStateB : AppState :=
  { master_entries := wMasterB,
    visible_entries := regenerate_visible_entries wMasterB,
    list_state := some 1 }

/-- Navigation fixture: `src` collapsed, two visible entries, cursor on
the last one. -/
def wState8 : AppState :=
  { master_entries := wMaster,
    visible_entries := regenerate_visible_entries wMaster,
    list_state := some 1 }

/-! ### The claims -/

/-- C1: for every master list in pre-order with depth annotations, the
visible list produced by the visibility recomputation contains an entry if
and only if every directory ancestor of that entry has
`is_expanded = true` (the list equals the ancestor-based `specVisible`
filter; depth-1 entries, having no ancestors, always pass the test), and
the visible list is a subsequence of the master list in the same relative
order. -/
theorem C1_visible_iff_ancestors_expanded (l : List FileEntry)
    (hpre : isPreOrder l = true) :
    (regenerate_visible_entries l).Sublist l ∧
    regenerate_visible_entries l = specVisible l ∧
    (∀ i, i < l.length → (l.getD i dE).depth = 1 → visSpecAt l i = true) :=
  ⟨regenAux_sublist [] l, regen_eq_specVisible l hpre,
    fun i hi hd => visSpecAt_of_depth_one l hpre i hi hd⟩

theorem C1_witness :
    isPreOrder wMaster = true ∧
    ((regenerate_visible_entries wMaster).Sublist wMaster ∧
      regenerate_visible_entries wMaster = specVisible wMaster ∧
      (∀ i, i < wMaster.length → (wMaster.getD i dE).depth = 1 →
        visSpecAt wMaster i = true)) :=
  ⟨by decide, C1_visible_iff_ancestors_expanded wMaster (by decide)⟩

/-- C2 (code bug): the claimed invariant — a defined selection index is
always `< visible_list.length` and the index is undefined on an empty
visible list — fails on the code: from the freshly constructed state of an
empty directory (selection undefined), one `next()` takes the `None => 0`
arm and selects index 0 of the empty visible list.  (A second
`next()`/`previous()` would then evaluate `visible_entries.len() - 1`,
which underflows `usize` and panics in debug builds.) -/
theorem C2_empty_list_selection_bug :
    (AppState.new [] none).list_state = none ∧
    (AppState.new [] none).visible_entries = [] ∧
    ((AppState.new [] none).next).list_state = some 0 ∧
    ((AppState.new [] none).next).visible_entries.length = 0 :=
  ⟨rfl, rfl, rfl, rfl⟩

/-- C3 (code bug): in `run` (src/tui.rs:164-179) the statement
`let post_exit_action = run_app(...)?` propagates a draw/read error before
`restore_terminal` is reached, so on the error path the terminal stays in
raw/alternate-screen mode; only the success path restores it.  There is no
guard/Drop pattern anywhere in the module. -/
theorem C3_error_path_leaves_raw_mode (e : String) (a : PostExitAction) :
    (run_after_setup (Except.error e)).2 = TerminalMode.raw ∧
    (run_after_setup (Except.ok a)).2 = TerminalMode.normal :=
  ⟨rfl, rfl⟩

/-- C4 (code bug): `next()` and `previous()` are claimed to be no-ops on an
empty visible list, leaving the selection undefined; the code has no
emptiness check: both take the `None => 0` arm and define the selection as
index 0 of the empty list.  (With a defined index on the empty list the
Rust `len() - 1` then underflows, a debug-build panic.) -/
theorem C4_empty_list_nav_not_noop :
    (AppState.new [] none).list_state = none ∧
    ((AppState.new [] none).next).list_state = some 0 ∧
    ((AppState.new [] none).previous).list_state = some 0 :=
  ⟨rfl, rfl, rfl⟩

/-- C6: on a master list with unique paths, `toggle(p)` flips the
`is_expanded` flag of exactly the entry whose path is `p` when that entry
is a directory, changes nothing when that entry is a file, and reproduces
every other entry unchanged in every field (the list also keeps its
length). -/
theorem C6_toggle_touches_exactly_target (m : List FileEntry) (p : String)
    (hu : (m.map FileEntry.path).Nodup) :
    (toggleFlag m p).length = m.length ∧
    ∀ i, i < m.length →
      (toggleFlag m p).getD i dE =
        (if (m.getD i dE).path = p ∧ (m.getD i dE).is_dir then
          { m.getD i dE with is_expanded := ! (m.getD i dE).is_expanded }
        else m.getD i dE) :=
  ⟨toggleFlag_length m p, toggleFlag_getD m p hu⟩

theorem C6_witness :
    (toggleFlag wMaster "src").length = wMaster.length ∧
    (toggleFlag wMaster "src").getD 0 dE = { wSrc with is_expanded := true } ∧
    (toggleFlag wMaster "README").getD 2 dE = wReadme := by
  have h := C6_toggle_touches_exactly_target wMaster "src" (by decide)
  have h' := C6_toggle_touches_exactly_target wMaster "README" (by decide)
  refine ⟨h.1, ?_, ?_⟩
  · rw [h.2 0 (by decide)]; decide
  · rw [h'.2 2 (by decide)]; decide

/-- C7: toggling the same path twice, each toggle followed by the
visibility recomputation, restores the visible list (for every master list
and every path, in particular every directory path). -/
theorem C7_round_trip (m : List FileEntry) (p : String) :
    regenerate_visible_entries (toggleFlag (toggleFlag m p) p) =
      regenerate_visible_entries m := by
  rw [toggleFlag_toggleFlag]

/-- C8: on a non-empty visible list of length `n`, `next()` maps a defined
index `i` to `i + 1` when `i < n - 1` and to `0` when `i = n - 1`, and
`previous()` maps `i` to `i - 1` when `i > 0` and to `n - 1` when
`i = 0`. -/
theorem C8_wraparound (s : AppState) (i : Nat) (h : s.list_state = some i)
    (hne : s.visible_entries ≠ []) :
    (i < s.visible_entries.length - 1 → s.next.list_state = some (i + 1)) ∧
    (i = s.visible_entries.length - 1 → s.next.list_state = some 0) ∧
    (0 < i → s.previous.list_state = some (i - 1)) ∧
    (i = 0 → s.previous.list_state = some (s.visible_entries.length - 1)) := by
  unfold AppState.next AppState.previous
  rw [h]
  refine ⟨fun hc => ?_, fun hc => ?_, fun hc => ?_, fun hc => ?_⟩ <;>
    simp only []
  · rw [if_neg (by omega)]
  · rw [if_pos (by omega)]
  · rw [if_neg (by omega)]
  · rw [if_pos hc]

theorem C8_witness :
    wState8.next.list_state = some 0 ∧ wState8.previous.list_state = some 0 := by
  have h := C8_wraparound wState8 1 rfl (by decide)
  exact ⟨h.2.1 (by decide), h.2.2.1 (by decide)⟩

/-- C9: at construction with `expand_level = some lvl`, given that the
scan created every entry with `is_expanded = false` (src/tui.rs:327), the
resulting master list has `is_expanded = true` exactly on directory
entries of depth strictly below `lvl`, and `false` everywhere else. -/
theorem C9_initial_expand_depth (scanned : List FileEntry) (lvl : Nat)
    (hscan : ∀ e ∈ scanned, e.is_expanded = false) :
    ∀ i, i < scanned.length →
      ((AppState.new scanned (some lvl)).master_entries.getD i dE).is_expanded =
        ((scanned.getD i dE).is_dir && decide ((scanned.getD i dE).depth < lvl)) := by
  intro i hi
  show ((applyExpandLevel scanned (some lvl)).getD i dE).is_expanded = _
  unfold applyExpandLevel
  have hmap : (scanned.map (fun e =>
        if e.is_dir && decide (e.depth < lvl) then { e with is_expanded := true }
        else e)).getD i dE
      = (if (scanned.getD i dE).is_dir && decide ((scanned.getD i dE).depth < lvl) then
          { scanned.getD i dE with is_expanded := true }
        else scanned.getD i dE) := by
    rw [List.getD_eq_getElem _ dE (by simpa using hi), List.getElem_map,
      List.getD_eq_getElem scanned dE hi]
  rw [hmap]
  by_cases hc : ((scanned.getD i dE).is_dir
      && decide ((scanned.getD i dE).depth < lvl)) = true
  · rw [if_pos hc, hc]
  · have hf : ((scanned.getD i dE).is_dir
        && decide ((scanned.getD i dE).depth < lvl)) = false := by
      cases hb : (scanned.getD i dE).is_dir && decide ((scanned.getD i dE).depth < lvl)
      · rfl
      · exact absurd hb hc
    rw [if_neg hc, hf]
    exact hscan _ (getD_mem scanned i hi)

theorem C9_witness :
    (∀ e ∈ wMaster, e.is_expanded = false) ∧
    ((AppState.new wMaster (some 2)).master_entries.getD 0 dE).is_expanded = true ∧
    ((AppState.new wMaster (some 2)).master_entries.getD 2 dE).is_expanded = false := by
  have h := C9_initial_expand_depth wMaster 2 (by decide)
  refine ⟨by decide, ?_, ?_⟩
  · rw [h 0 (by decide)]; decide
  · rw [h 2 (by decide)]; decide

/-! ### Re-anchoring after a toggle (C5, C10) -/

/-- The path under the cursor, captured before recomputation
(src/tui.rs:133). -/
def selPath (s : AppState) (i : Nat) : String :=
  (s.visible_entries.getD i dE).path

/-- The master list after the flip of `toggle_selected_directory`. -/
def toggledMaster (s : AppState) (i : Nat) : List FileEntry :=
  toggleFlag s.master_entries (selPath s i)

/-- The visible list recomputed by `toggle_selected_directory`. -/
def toggledVisible (s : AppState) (i : Nat) : List FileEntry :=
  regenerate_visible_entries (toggledMaster s i)

/-- Reduction of `toggle_selected_directory` on a defined selection. -/
theorem toggle_red (s : AppState) (i : Nat) (h : s.list_state = some i) :
    s.toggle_selected_directory =
      (match (toggledVisible s i).findIdx? (fun e => e.path == selPath s i) with
        | some new_index =>
          { master_entries := toggledMaster s i,
            visible_entries := toggledVisible s i,
            list_state := some new_index }
        | none =>
          { master_entries := toggledMaster s i,
            visible_entries := toggledVisible s i,
            list_state := some (min i ((toggledVisible s i).length - 1)) }) := by
  unfold AppState.toggle_selected_directory
  rw [h]
  rfl

theorem exists_getD_of_mem (l : List FileEntry) (x : FileEntry) (hx : x ∈ l) :
    ∃ n, n < l.length ∧ l.getD n dE = x := by
  obtain ⟨n, hn⟩ := List.mem_iff_get.mp hx
  exact ⟨n.1, n.2, by rw [List.getD_eq_getElem l dE n.2]; simpa using hn⟩

theorem getD_append_of_length_eq (m₁ m₂ : List FileEntry) (e : FileEntry)
    (k : Nat) (hk : m₁.length = k) : (m₁ ++ e :: m₂).getD k dE = e := by
  subst hk
  exact getD_append_length m₁ m₂ e

/-- C5 (amended): re-anchoring after a toggle — with the path under the
cursor captured before recomputation, if that path occurs in the new
visible list the cursor is set to the first index where it occurs;
otherwise the cursor is set to `min(previous_index, new_length - 1)`.
(The original claim's Scenario B — collapsing `src` while `src/main.ext`
is selected — does not arise from this operation, which toggles the entry
under the cursor: see the counterexample.) -/
theorem C5_reanchor_amended (s : AppState) (i : Nat) (h : s.list_state = some i)
    (_hi : i < s.visible_entries.length) :
    s.toggle_selected_directory.master_entries = toggledMaster s i ∧
    s.toggle_selected_directory.visible_entries = toggledVisible s i ∧
    ((∃ j, j < (toggledVisible s i).length ∧
        ((toggledVisible s i).getD j dE).path = selPath s i ∧
        (∀ k, k < j → ((toggledVisible s i).getD k dE).path ≠ selPath s i) ∧
        s.toggle_selected_directory.list_state = some j) ∨
      ((∀ k, k < (toggledVisible s i).length →
          ((toggledVisible s i).getD k dE).path ≠ selPath s i) ∧
        s.toggle_selected_directory.list_state
          = some (min i ((toggledVisible s i).length - 1)))) := by
  have hred := toggle_red s i h
  cases hf : (toggledVisible s i).findIdx? (fun e => e.path == selPath s i) with
  | some j =>
    rw [hf] at hred
    obtain ⟨_, hlt, hj, hfirst⟩ :=
      findIdx?_some_spec (fun e => e.path == selPath s i) (toggledVisible s i) 0 j hf
    simp only [Nat.sub_zero] at hlt hj hfirst
    refine ⟨by rw [hred], by rw [hred], Or.inl ⟨j, hlt, ?_, ?_, by rw [hred]⟩⟩
    · simpa using hj
    · intro k hk
      have := hfirst k hk
      simpa using this
  | none =>
    rw [hf] at hred
    have hnone := findIdx?_none_spec (fun e => e.path == selPath s i)
      (toggledVisible s i) 0 hf
    refine ⟨by rw [hred], by rw [hred], Or.inr ⟨?_, by rw [hred]⟩⟩
    intro k hk
    have := hnone k hk
    simpa using this

/-- C5 counterexample: in the Scenario B state (tree `[src, src/main.ext,
README]` with `src` expanded and `src/main.ext` at index 1 selected), the
claim predicts that the toggle collapses `src`, shrinking the visible list
to 2 entries with the cursor at index 1 on `README`.  The code instead
toggles the entry under the cursor — a file — so no flag flips: the
visible list keeps its 3 entries and the cursor stays on `src/main.ext`. -/
theorem C5_counterexample :
    ¬ (wStateB.toggle_selected_directory.visible_entries.length = 2 ∧
       wStateB.toggle_selected_directory.list_state = some 1 ∧
       (wStateB.toggle_selected_directory.visible_entries.getD 1 dE).path
         = "README") := by
  decide

theorem C5_witness :
    ∃ j, wStateB.toggle_selected_directory.list_state = some j ∧
      j < (toggledVisible wStateB 1).length ∧
      ((toggledVisible wStateB 1).getD j dE).path = "src/main.ext" := by
  have h := C5_reanchor_amended wStateB 1 rfl (by decide)
  rcases h.2.2 with ⟨j, hj1, hj2, _, hj4⟩ | ⟨hall, _⟩
  · refine ⟨j, hj4, hj1, ?_⟩
    rw [hj2]
    decide
  · exfalso
    exact hall 1 (by decide) (by decide)

/-- C10: `toggle_selected_directory` always re-anchors onto the same path.
Under the reachable-state facts that the master paths are unique and the
visible list is the recomputation of the master list, a defined in-range
selection keeps its path visible — flipping touches only the selected
entry's own flag, never an ancestor's — so the position search succeeds
and the cursor is set to the path's new index (the clamp fallback is never
executed); with no selection the operation changes nothing. -/
theorem C10_toggle_always_reanchors (s : AppState)
    (hnd : (s.master_entries.map FileEntry.path).Nodup)
    (hvis : s.visible_entries = regenerate_visible_entries s.master_entries) :
    (s.list_state = none → s.toggle_selected_directory = s) ∧
    (∀ i, s.list_state = some i → i < s.visible_entries.length →
      (∃ j, j < s.toggle_selected_directory.visible_entries.length ∧
        (s.toggle_selected_directory.visible_entries.getD j dE).path = selPath s i ∧
        s.toggle_selected_directory.list_state = some j) ∧
      (∀ k, k < s.master_entries.length →
        s.toggle_selected_directory.master_entries.getD k dE =
          (if (s.master_entries.getD k dE).path = selPath s i
              ∧ (s.master_entries.getD k dE).is_dir then
            { s.master_entries.getD k dE with
                is_expanded := ! (s.master_entries.getD k dE).is_expanded }
          else s.master_entries.getD k dE))) := by
  constructor
  · intro h0
    unfold AppState.toggle_selected_directory
    rw [h0]
  · intro i hsel hi
    have hmemvis : s.visible_entries.getD i dE ∈ regenerate_visible_entries s.master_entries := by
      rw [← hvis]
      exact getD_mem s.visible_entries i hi
    obtain ⟨k, hk, hinc, hgd⟩ :=
      exists_index_of_mem_regen s.master_entries (s.visible_entries.getD i dE) hmemvis
    have hpk : (s.master_entries.getD k dE).path = selPath s i := by
      rw [hgd]; rfl
    -- the toggled master decomposes around index k
    have hne1 : ∀ e ∈ s.master_entries.take k, e.path ≠ selPath s i := by
      intro e he hc
      exact path_ne_of_nodup_take s.master_entries k hk hnd e he (by rw [hpk]; exact hc)
    have hdecomp : s.master_entries
        = s.master_entries.take k ++
            (s.master_entries.getD k dE :: s.master_entries.drop (k + 1)) :=
      take_getD_drop s.master_entries k hk
    have htog : toggledMaster s i
        = s.master_entries.take k ++
            ((if (s.master_entries.getD k dE).is_dir then
                { s.master_entries.getD k dE with
                    is_expanded := ! (s.master_entries.getD k dE).is_expanded }
              else s.master_entries.getD k dE) :: s.master_entries.drop (k + 1)) := by
      show toggleFlag s.master_entries (selPath s i) = _
      conv_lhs => rw [hdecomp]
      rw [toggleFlag_append_of_ne _ _ _ hne1, toggleFlag, if_pos hpk]
    have hlen' : (toggledMaster s i).length = s.master_entries.length := by
      show (toggleFlag s.master_entries (selPath s i)).length = _
      exact toggleFlag_length ..
    have htk : (toggledMaster s i).take k = s.master_entries.take k := by
      rw [htog, List.take_append_of_le_length (by rw [List.length_take]; omega),
        List.take_take]
      congr 1
      omega
    have hlenk : (s.master_entries.take k).length = k := by
      rw [List.length_take]; omega
    have hgd' : (toggledMaster s i).getD k dE
        = (if (s.master_entries.getD k dE).is_dir then
            { s.master_entries.getD k dE with
                is_expanded := ! (s.master_entries.getD k dE).is_expanded }
          else s.master_entries.getD k dE) := by
      rw [htog]
      exact getD_append_of_length_eq _ _ _ k hlenk
    have hdep : ((toggledMaster s i).getD k dE).depth
        = (s.master_entries.getD k dE).depth := by
      rw [hgd']
      split
      · rfl
      · rfl
    have hpath' : ((toggledMaster s i).getD k dE).path = selPath s i := by
      rw [hgd']
      split
      · exact hpk
      · exact hpk
    have hinc' : includedAt (toggledMaster s i) k = true := by
      rw [includedAt_congr s.master_entries (toggledMaster s i) k htk hdep]
      exact hinc
    have hmem' : (toggledMaster s i).getD k dE ∈ toggledVisible s i :=
      mem_regen_of_included (toggledMaster s i) k (by omega) hinc'
    obtain ⟨n, hn, hgdn⟩ := exists_getD_of_mem (toggledVisible s i) _ hmem'
    have hred := toggle_red s i hsel
    cases hf : (toggledVisible s i).findIdx? (fun e => e.path == selPath s i) with
    | none =>
      exfalso
      have := findIdx?_none_spec (fun e => e.path == selPath s i)
        (toggledVisible s i) 0 hf n hn
      rw [hgdn] at this
      simp only [beq_eq_false_iff_ne, ne_eq] at this
      exact this hpath'
    | some j =>
      rw [hf] at hred
      obtain ⟨_, hlt, hj, _⟩ :=
        findIdx?_some_spec (fun e => e.path == selPath s i) (toggledVisible s i) 0 j hf
      simp only [Nat.sub_zero] at hlt hj
      constructor
      · refine ⟨j, ?_, ?_, ?_⟩
        · rw [hred]; exact hlt
        · rw [hred]; simpa using hj
        · rw [hred]
      · intro k' hk'
        have hchar := toggleFlag_getD s.master_entries (selPath s i) hnd k' hk'
        rw [hred]
        exact hchar

theorem C10_witness :
    ∃ j, j < wStateA.toggle_selected_directory.visible_entries.length ∧
      (wStateA.toggle_selected_directory.visible_entries.getD j dE).path
        = selPath wStateA 0 ∧
      wStateA.toggle_selected_directory.list_state = some j :=
  ((C10_toggle_always_reanchors wStateA (by decide) rfl).2 0 rfl (by decide)).1

end Lstr
